import Mathlib

/-!
Verification of the checkpoint/resume core of s3sha256sum.

The program streams an S3 object through Go's `crypto/sha256` accumulator.
Its checkpoint/resume core (main.go together with utils.go) reaches into the
accumulator's internal state via reflection: `hashMarshalBinary` /
`hashUnmarshalBinary` call the digest's `MarshalBinary` / `UnmarshalBinary`
methods and `hashGetLen` reads its `len` field.  utils.go pins the engine's
internal layout to go1.17 `src/crypto/sha256/sha256.go`, so the embedding
below translates that digest implementation (the `digest` struct, `Write`,
`block`, `checkSum`, `Sum`, `MarshalBinary`, `UnmarshalBinary`) together with
the session logic of main.go (resume decoding, range selection, the io.Copy
error branch, and the signal handler).

Representation notes:
* machine words are `Nat` with explicit `% 2 ^ 32` / `% 2 ^ 64` where Go's
  fixed-width arithmetic wraps;
* Go's `d.x [64]byte` buffer holds `d.nx` valid bytes; bytes past `d.nx` are
  never read (a full buffer is compressed immediately), so the embedding keeps
  only the valid prefix in `Digest.x` and `d.nx` is `Digest.x.length`.
-/

/-- Number of bytes per SHA-256 block (`chunk` in Go). -/
def chunk : Nat := 64

/-- The eight 32-bit chaining words `d.h[0] .. d.h[7]` of Go's sha256 digest. -/
structure Chaining where
  h0 : Nat
  h1 : Nat
  h2 : Nat
  h3 : Nat
  h4 : Nat
  h5 : Nat
  h6 : Nat
  h7 : Nat
  deriving DecidableEq, Repr

/-- Internal state of one sha256 computation: chaining words `h`, the valid
prefix `x` of the partial-block buffer (`d.x[:d.nx]` in Go), and the total
ingested byte count `len`. -/
structure Digest where
  h : Chaining
  x : List Nat
  len : Nat
  deriving DecidableEq, Repr

/-- Initial chaining constants (`init0 ..  init7` in Go's sha256). -/
def initChaining : Chaining :=
  ⟨0x6A09E667, 0xBB67AE85, 0x3C6EF372, 0xA54FF53A,
   0x510E527F, 0x9B05688C, 0x1F83D9AB, 0x5BE0CD19⟩

/-- Fresh accumulator, `sha256.New()`. -/
def sha256New : Digest := ⟨initChaining, [], 0⟩

/-- The 64 round constants `_K` of Go's sha256block.go (grouped eight per
row of the table). -/
def K : List Nat :=
  [0x428a2f98, 0x71374491, 0xb5c0fbcf, 0xe9b5dba5,
   0x3956c25b, 0x59f111f1, 0x923f82a4, 0xab1c5ed5] ++
  [0xd807aa98, 0x12835b01, 0x243185be, 0x550c7dc3,
   0x72be5d74, 0x80deb1fe, 0x9bdc06a7, 0xc19bf174] ++
  [0xe49b69c1, 0xefbe4786, 0x0fc19dc6, 0x240ca1cc,
   0x2de92c6f, 0x4a7484aa, 0x5cb0a9dc, 0x76f988da] ++
  [0x983e5152, 0xa831c66d, 0xb00327c8, 0xbf597fc7,
   0xc6e00bf3, 0xd5a79147, 0x06ca6351, 0x14292967] ++
  [0x27b70a85, 0x2e1b2138, 0x4d2c6dfc, 0x53380d13,
   0x650a7354, 0x766a0abb, 0x81c2c92e, 0x92722c85] ++
  [0xa2bfe8a1, 0xa81a664b, 0xc24b8b70, 0xc76c51a3,
   0xd192e819, 0xd6990624, 0xf40e3585, 0x106aa070] ++
  [0x19a4c116, 0x1e376c08, 0x2748774c, 0x34b0bcb5,
   0x391c0cb3, 0x4ed8aa4a, 0x5b9cca4f, 0x682e6ff3] ++
  [0x748f82ee, 0x78a5636f, 0x84c87814, 0x8cc70208,
   0x90befffa, 0xa4506ceb, 0xbef9a3f7, 0xc67178f2]

/-- 32-bit rotate right, `bits.RotateLeft32(v, -n)` on a `uint32`. -/
def rotr (x n : Nat) : Nat := ((x >>> n) ||| (x <<< (32 - n))) % 2 ^ 32

/-- Sum truncated to a 32-bit word (`+` on Go `uint32`). -/
def addMod32 (x y : Nat) : Nat := (x + y) % 2 ^ 32

/-- Final step of one compression: add the round output back onto the
chaining words (`h0 += a; ...; h7 += h` in Go's block). -/
def finalAdd (H : Chaining) (s : Nat × Nat × Nat × Nat × Nat × Nat × Nat × Nat) :
    Chaining :=
  ⟨addMod32 H.h0 s.1, addMod32 H.h1 s.2.1, addMod32 H.h2 s.2.2.1,
   addMod32 H.h3 s.2.2.2.1, addMod32 H.h4 s.2.2.2.2.1,
   addMod32 H.h5 s.2.2.2.2.2.1, addMod32 H.h6 s.2.2.2.2.2.2.1,
   addMod32 H.h7 s.2.2.2.2.2.2.2⟩

/-- One iteration of the outer loop of Go's `blockGeneric`: compress the
64-byte block `p` into the chaining words.  The message schedule `w` is built
exactly as in Go (16 big-endian words from the block, then 48 extension
words), and the 64 rounds run over `_K` zipped with `w`. -/
def blockStep (H : Chaining) (p : List Nat) : Chaining :=
  let w0 := (List.range 16).map fun i =>
    (((p.getD (4 * i) 0) <<< 24) ||| ((p.getD (4 * i + 1) 0) <<< 16) |||
     ((p.getD (4 * i + 2) 0) <<< 8) ||| p.getD (4 * i + 3) 0)
  let w := (List.range 48).foldl
    (fun w _ =>
      let n := w.length
      let v1 := w.getD (n - 2) 0
      let t1 := (rotr v1 17) ^^^ (rotr v1 19) ^^^ (v1 >>> 10)
      let v2 := w.getD (n - 15) 0
      let t2 := (rotr v2 7) ^^^ (rotr v2 18) ^^^ (v2 >>> 3)
      w ++ [(t1 + w.getD (n - 7) 0 + t2 + w.getD (n - 16) 0) % 2 ^ 32])
    w0
  let s := (K.zip w).foldl
    (fun (s : Nat × Nat × Nat × Nat × Nat × Nat × Nat × Nat) kw =>
      let (a, b, c, d, e, f, g, h) := s
      let t1 := (h + ((rotr e 6) ^^^ (rotr e 11) ^^^ (rotr e 25)) +
        ((e &&& f) ^^^ ((0xffffffff ^^^ e) &&& g)) + kw.1 + kw.2) % 2 ^ 32
      let t2 := (((rotr a 2) ^^^ (rotr a 13) ^^^ (rotr a 22)) +
        ((a &&& b) ^^^ (a &&& c) ^^^ (b &&& c))) % 2 ^ 32
      ((t1 + t2) % 2 ^ 32, a, b, c, (d + t1) % 2 ^ 32, e, f, g))
    (H.h0, H.h1, H.h2, H.h3, H.h4, H.h5, H.h6, H.h7)
  finalAdd H s

/-- Go's `block(dig, p)`: compress 64-byte chunks of `p` while at least one
full chunk remains (the loop `for len(p) >= chunk`). -/
def block (H : Chaining) (p : List Nat) : Chaining :=
  if _h : chunk ≤ p.length then block (blockStep H (p.take chunk)) (p.drop chunk)
  else H
termination_by p.length
decreasing_by
  simp only [List.length_drop, chunk] at *
  omega

/-- Stages 2 and 3 of Go's `Write`, run after the partial-buffer stage:
compress the full chunks of `rest` directly, then stash the remainder in the
buffer (leaving the stage-1 buffer `x1` if no bytes remain). -/
def writeBlocks (H : Chaining) (x1 rest : List Nat) (newLen : Nat) : Digest :=
  let nfull := rest.length / chunk * chunk
  let p2 := rest.drop nfull
  ⟨block H (rest.take nfull), if 0 < p2.length then p2 else x1, newLen⟩

/-- Go's `digest.Write`: the total length advances (wrapping as `uint64`);
stage 1 tops up an existing partial buffer and compresses it if it fills;
stages 2 and 3 are `writeBlocks`. -/
def write (d : Digest) (p : List Nat) : Digest :=
  let newLen := (d.len + p.length) % 2 ^ 64
  if 0 < d.x.length then
    let n := min (chunk - d.x.length) p.length
    let xf := d.x ++ p.take n
    if xf.length = chunk then writeBlocks (blockStep d.h xf) [] (p.drop n) newLen
    else writeBlocks d.h xf (p.drop n) newLen
  else writeBlocks d.h d.x p newLen

/-- Big-endian bytes of a 32-bit word, Go's `appendUint32` (each byte is a
`byte(x >> k)` truncation). -/
def appendUint32 (x : Nat) : List Nat :=
  [(x >>> 24) % 256, (x >>> 16) % 256, (x >>> 8) % 256, x % 256]

/-- Big-endian bytes of a 64-bit word, Go's `appendUint64`. -/
def appendUint64 (x : Nat) : List Nat :=
  [(x >>> 56) % 256, (x >>> 48) % 256, (x >>> 40) % 256, (x >>> 32) % 256,
   (x >>> 24) % 256, (x >>> 16) % 256, (x >>> 8) % 256, x % 256]

/-- Go's `consumeUint32`: reassemble a big-endian 32-bit word
(`uint32(b[3]) | uint32(b[2])<<8 | uint32(b[1])<<16 | uint32(b[0])<<24`). -/
def readUint32 (b : List Nat) : Nat :=
  (b.getD 3 0) ||| ((b.getD 2 0) <<< 8) ||| ((b.getD 1 0) <<< 16) |||
    ((b.getD 0 0) <<< 24)

/-- Go's `consumeUint64`: reassemble a big-endian 64-bit word. -/
def readUint64 (b : List Nat) : Nat :=
  (b.getD 7 0) ||| ((b.getD 6 0) <<< 8) ||| ((b.getD 5 0) <<< 16) |||
    ((b.getD 4 0) <<< 24) ||| ((b.getD 3 0) <<< 32) ||| ((b.getD 2 0) <<< 40) |||
    ((b.getD 1 0) <<< 48) ||| ((b.getD 0 0) <<< 56)

/-- The 4-byte format tag `magic256 = "sha\x03"`. -/
def magic256 : List Nat := [0x73, 0x68, 0x61, 0x03]

/-- Total size of a marshaled state: tag + 8 words + 64-byte buffer + length. -/
def marshaledSize : Nat := 108

/-- Go's `digest.MarshalBinary` for sha256: the tag, the eight chaining words
big-endian, the buffer's valid bytes zero-padded to 64, and the 64-bit length.
This is the encoder behind `hashMarshalBinary` in utils.go (the reflective
call), which copies the returned bytes verbatim. -/
def marshalBinary (d : Digest) : List Nat :=
  magic256 ++ appendUint32 d.h.h0 ++ appendUint32 d.h.h1 ++ appendUint32 d.h.h2 ++
    appendUint32 d.h.h3 ++ appendUint32 d.h.h4 ++ appendUint32 d.h.h5 ++
    appendUint32 d.h.h6 ++ appendUint32 d.h.h7 ++
    (d.x ++ List.replicate (chunk - d.x.length) 0) ++ appendUint64 d.len

/-- Go's `digest.UnmarshalBinary` for sha256, behind `hashUnmarshalBinary` in
utils.go: reject a missing/wrong 4-byte tag, then a total length other than
108; otherwise overwrite every field of the digest from the bytes, deriving
the buffer occupancy `nx` as `len % chunk` (the embedding keeps the `nx`-byte
valid prefix of the 64 stored buffer bytes). -/
def unmarshalBinary (b : List Nat) : Except String Digest :=
  if b.length < 4 ∨ b.take 4 ≠ magic256 then
    .error "crypto/sha256: invalid hash state identifier"
  else if b.length ≠ marshaledSize then
    .error "crypto/sha256: invalid hash state size"
  else
    let r0 := b.drop 4
    let l := readUint64 (r0.drop 96)
    .ok ⟨⟨readUint32 r0, readUint32 (r0.drop 4), readUint32 (r0.drop 8),
          readUint32 (r0.drop 12), readUint32 (r0.drop 16), readUint32 (r0.drop 20),
          readUint32 (r0.drop 24), readUint32 (r0.drop 28)⟩,
         ((r0.drop 32).take chunk).take (l % chunk), l⟩

/-- Go's `hashGetLen` (utils.go): read the digest's private `len` field. -/
def hashGetLen (d : Digest) : Nat := d.len

/-- Go's `digest.checkSum`: append the `0x80 ... 0` padding up to 56 mod 64,
append the bit length as a big-endian `uint64` (`len <<= 3` wraps), and emit
the chaining words big-endian. -/
def checkSum (d : Digest) : List Nat :=
  let l := d.len
  let padlen := if l % 64 < 56 then 56 - l % 64 else 64 + 56 - l % 64
  let d1 := write d ((128 :: List.replicate 63 0).take padlen)
  let d2 := write d1 (appendUint64 ((l <<< 3) % 2 ^ 64))
  appendUint32 d2.h.h0 ++ appendUint32 d2.h.h1 ++ appendUint32 d2.h.h2 ++
    appendUint32 d2.h.h3 ++ appendUint32 d2.h.h4 ++ appendUint32 d2.h.h5 ++
    appendUint32 d2.h.h6 ++ appendUint32 d2.h.h7

/-- Go's `digest.Sum`: finalize a copy of the state, so the accumulator
itself is untouched; `h.Sum(nil)` is exactly the 32 digest bytes. -/
def sumBytes (d : Digest) : List Nat := checkSum d

/-- States reachable by feeding bytes into a fresh accumulator (`sha256.New()`
followed by `Write`s; by `write_append` below a single `write` of the
concatenation reaches the same states as any sequence of `write`s). -/
def Reachable (d : Digest) : Prop :=
  ∃ p : List Nat, (∀ b ∈ p, b < 256) ∧ d = write sha256New p

/-- Chaining words fit in 32 bits. -/
def BoundedC (H : Chaining) : Prop :=
  H.h0 < 2 ^ 32 ∧ H.h1 < 2 ^ 32 ∧ H.h2 < 2 ^ 32 ∧ H.h3 < 2 ^ 32 ∧
    H.h4 < 2 ^ 32 ∧ H.h5 < 2 ^ 32 ∧ H.h6 < 2 ^ 32 ∧ H.h7 < 2 ^ 32

/-- Structural invariant of a digest state: bounded words, byte-valued valid
buffer, buffer occupancy `len % 64`, and a 64-bit length. -/
def StateInv (d : Digest) : Prop :=
  BoundedC d.h ∧ (∀ b ∈ d.x, b < 256) ∧ d.x.length = d.len % 64 ∧ d.len < 2 ^ 64

/-! ## Basic facts about the compression loop -/

theorem block_nil (H : Chaining) : block H [] = H := by
  rw [block]
  simp [chunk]

theorem block_of_lt (H : Chaining) (p : List Nat) (h : p.length < chunk) :
    block H p = H := by
  rw [block]
  simp [Nat.not_le.mpr h]

/-- Splitting the input at a block boundary splits the compression loop. -/
theorem block_append_aux (n : Nat) : ∀ (a b : List Nat) (H : Chaining),
    a.length ≤ n → a.length % chunk = 0 → block H (a ++ b) = block (block H a) b := by
  induction n with
  | zero =>
    intro a b H hle _
    have ha : a = [] := by
      cases a with
      | nil => rfl
      | cons x xs => simp at hle
    subst ha
    rw [block_nil, List.nil_append]
  | succ n ih =>
    intro a b H hle ha
    rcases Nat.eq_zero_or_pos a.length with h0 | h0
    · have hnil : a = [] := List.eq_nil_of_length_eq_zero h0
      subst hnil
      rw [block_nil, List.nil_append]
    · have hc : chunk ≤ a.length := by
        simp only [chunk] at *
        omega
      rw [block, dif_pos (show chunk ≤ (a ++ b).length by
        simp only [List.length_append]; omega)]
      rw [List.take_append_of_le_length hc, List.drop_append_of_le_length hc]
      have hrhs : block H a = block (blockStep H (a.take chunk)) (a.drop chunk) := by
        conv_lhs => rw [block]
        rw [dif_pos hc]
      rw [hrhs]
      exact ih (a.drop chunk) b (blockStep H (a.take chunk))
        (by simp only [List.length_drop, chunk] at *; omega)
        (by simp only [List.length_drop, chunk] at *; omega)

theorem block_append (a b : List Nat) (H : Chaining) (ha : a.length % chunk = 0) :
    block H (a ++ b) = block (block H a) b :=
  block_append_aux a.length a b H le_rfl ha

/-- The compression loop ignores the trailing partial chunk. -/
theorem block_take_aux (n : Nat) : ∀ (p : List Nat) (H : Chaining), p.length ≤ n →
    block H (p.take (p.length / chunk * chunk)) = block H p := by
  induction n with
  | zero =>
    intro p H hle
    have hp : p = [] := by
      cases p with
      | nil => rfl
      | cons x xs => simp at hle
    subst hp
    simp
  | succ n ih =>
    intro p H hle
    by_cases hc : chunk ≤ p.length
    · have hnf : chunk ≤ p.length / chunk * chunk := by
        simp only [chunk] at *
        omega
      have hnfle : p.length / chunk * chunk ≤ p.length := Nat.div_mul_le_self _ _
      conv_lhs => rw [block]
      rw [dif_pos (show chunk ≤ (p.take (p.length / chunk * chunk)).length by
        rw [List.length_take]; omega)]
      rw [List.take_take, Nat.min_eq_left hnf, List.drop_take]
      have hq : p.length / chunk * chunk - chunk = (p.drop chunk).length / chunk * chunk := by
        simp only [List.length_drop, chunk] at *
        omega
      rw [hq, ih (p.drop chunk) _ (by simp only [List.length_drop, chunk] at *; omega)]
      conv_rhs => rw [block]
      rw [dif_pos hc]
    · push_neg at hc
      have hz : p.length / chunk * chunk = 0 := by
        simp only [chunk] at *
        omega
      rw [hz, List.take_zero, block_nil, block_of_lt _ _ hc]

theorem block_take (p : List Nat) (H : Chaining) :
    block H (p.take (p.length / chunk * chunk)) = block H p :=
  block_take_aux p.length p H le_rfl

/-! ## Word bounds -/

theorem addMod32_lt (x y : Nat) : addMod32 x y < 2 ^ 32 :=
  Nat.mod_lt _ (by norm_num)

theorem finalAdd_bounded (H : Chaining) (s : Nat × Nat × Nat × Nat × Nat × Nat × Nat × Nat) :
    BoundedC (finalAdd H s) :=
  ⟨addMod32_lt _ _, addMod32_lt _ _, addMod32_lt _ _, addMod32_lt _ _,
   addMod32_lt _ _, addMod32_lt _ _, addMod32_lt _ _, addMod32_lt _ _⟩

theorem blockStep_bounded (H : Chaining) (p : List Nat) : BoundedC (blockStep H p) := by
  unfold blockStep
  exact finalAdd_bounded _ _

theorem block_bounded_aux (n : Nat) : ∀ (p : List Nat) (H : Chaining), p.length ≤ n →
    BoundedC H → BoundedC (block H p) := by
  induction n with
  | zero =>
    intro p H hle hb
    have : p.length < chunk := by simp only [chunk]; omega
    rwa [block_of_lt _ _ this]
  | succ n ih =>
    intro p H hle hb
    by_cases hc : chunk ≤ p.length
    · rw [block, dif_pos hc]
      exact ih _ _ (by simp only [List.length_drop, chunk] at *; omega)
        (blockStep_bounded _ _)
    · push_neg at hc
      rwa [block_of_lt _ _ hc]

theorem block_bounded (p : List Nat) (H : Chaining) (hb : BoundedC H) :
    BoundedC (block H p) :=
  block_bounded_aux p.length p H le_rfl hb

/-! ## Characterization of `write` -/

theorem ite_pos_length (l : List Nat) : (if 0 < l.length then l else ([] : List Nat)) = l := by
  cases l <;> simp

theorem writeBlocks_rest_nil (H : Chaining) (x1 : List Nat) (L : Nat) :
    writeBlocks H x1 [] L = ⟨H, x1, L⟩ := by
  simp [writeBlocks, block_nil]

theorem writeBlocks_nil_buf (H : Chaining) (rest : List Nat) (L : Nat) :
    writeBlocks H [] rest L =
      ⟨block H rest, rest.drop (rest.length / chunk * chunk), L⟩ := by
  simp only [writeBlocks]
  rw [ite_pos_length, block_take]

/-- Closed form of Go's staged `Write`: compress every full chunk of the
buffer followed by the input, and keep the remainder as the new buffer. -/
theorem write_eq (d : Digest) (p : List Nat) (hx : d.x.length < chunk) :
    write d p = ⟨block d.h (d.x ++ p),
      (d.x ++ p).drop ((d.x.length + p.length) / chunk * chunk),
      (d.len + p.length) % 2 ^ 64⟩ := by
  by_cases hpos : 0 < d.x.length
  · by_cases hfill : chunk ≤ d.x.length + p.length
    · -- stage 1 fills the buffer and compresses it
      have hn : min (chunk - d.x.length) p.length = chunk - d.x.length :=
        Nat.min_eq_left (by omega)
      have htake : (p.take (chunk - d.x.length)).length = chunk - d.x.length := by
        rw [List.length_take]
        omega
      have hxf : (d.x ++ p.take (chunk - d.x.length)).length = chunk := by
        rw [List.length_append, htake]
        omega
      simp only [write, hn, if_pos hpos, if_pos hxf]
      rw [writeBlocks_nil_buf]
      have hsplit : d.x ++ p =
          (d.x ++ p.take (chunk - d.x.length)) ++ p.drop (chunk - d.x.length) := by
        rw [List.append_assoc, List.take_append_drop]
      have hone : block d.h (d.x ++ p.take (chunk - d.x.length)) =
          blockStep d.h (d.x ++ p.take (chunk - d.x.length)) := by
        rw [block, dif_pos (le_of_eq hxf.symm)]
        rw [List.take_of_length_le (le_of_eq hxf), List.drop_eq_nil_of_le (le_of_eq hxf),
          block_nil]
      have hq : (p.drop (chunk - d.x.length)).length = d.x.length + p.length - chunk := by
        rw [List.length_drop]
        omega
      have hN : (d.x.length + p.length) / chunk * chunk =
          chunk + (p.drop (chunk - d.x.length)).length / chunk * chunk := by
        rw [hq]
        simp only [chunk] at *
        omega
      simp only [Digest.mk.injEq]
      refine ⟨?_, ?_, trivial⟩
      · rw [hsplit, block_append _ _ _ (by rw [hxf, Nat.mod_self]), hone]
      · rw [hsplit, hN, ← List.drop_drop, List.drop_left' hxf]
    · -- stage 1 leaves a partial buffer and consumes all of p
      push_neg at hfill
      have hn : min (chunk - d.x.length) p.length = p.length :=
        Nat.min_eq_right (by omega)
      have hxf : (d.x ++ p.take p.length).length ≠ chunk := by
        rw [List.take_length, List.length_append]
        omega
      simp only [write, hn, if_pos hpos, if_neg hxf]
      rw [List.take_length, List.drop_length, writeBlocks_rest_nil]
      have hz : (d.x.length + p.length) / chunk * chunk = 0 := by
        simp only [chunk] at *
        omega
      rw [hz, List.drop_zero, block_of_lt _ _ (by rw [List.length_append]; omega)]
  · -- empty buffer: stages 2 and 3 on p directly
    have hnil : d.x = [] := List.eq_nil_of_length_eq_zero (by omega)
    simp only [write, if_neg hpos]
    rw [hnil, writeBlocks_nil_buf, List.nil_append]
    simp

/-- Two successive `Write`s ingest the concatenation: Go's streaming hashing
is split-point independent. -/
theorem write_append (d : Digest) (a b : List Nat) (hx : d.x.length < chunk) :
    write (write d a) b = write d (a ++ b) := by
  have h1 := write_eq d a hx
  have hxa : ((d.x ++ a).drop ((d.x.length + a.length) / chunk * chunk)).length < chunk := by
    simp only [List.length_drop, List.length_append]
    simp only [chunk]
    omega
  rw [h1, write_eq _ b hxa, write_eq d (a ++ b) hx, ← List.append_assoc]
  have hN1le : (d.x.length + a.length) / chunk * chunk ≤ (d.x ++ a).length := by
    simp only [List.length_append]
    exact Nat.div_mul_le_self _ _
  have hmod : ((d.x ++ a).take ((d.x.length + a.length) / chunk * chunk)).length % chunk = 0 := by
    rw [List.length_take, Nat.min_eq_left hN1le]
    simp only [chunk]
    omega
  have hdroplt : ((d.x ++ a).drop ((d.x.length + a.length) / chunk * chunk)).length < chunk :=
    hxa
  have hbs : block d.h (d.x ++ a) =
      block d.h ((d.x ++ a).take ((d.x.length + a.length) / chunk * chunk)) := by
    conv_lhs => rw [← List.take_append_drop ((d.x.length + a.length) / chunk * chunk) (d.x ++ a)]
    rw [block_append _ _ _ hmod, block_of_lt _ _ hdroplt]
  have hbr : block d.h ((d.x ++ a) ++ b) =
      block (block d.h ((d.x ++ a).take ((d.x.length + a.length) / chunk * chunk)))
        ((d.x ++ a).drop ((d.x.length + a.length) / chunk * chunk) ++ b) := by
    conv_lhs => rw [← List.take_append_drop ((d.x.length + a.length) / chunk * chunk) (d.x ++ a)]
    rw [List.append_assoc, block_append _ _ _ hmod]
  simp only [Digest.mk.injEq]
  refine ⟨?_, ?_, ?_⟩
  · rw [hbs, hbr]
  · rw [← List.drop_append_of_le_length hN1le, List.drop_drop]
    congr 1
    simp only [List.length_drop, List.length_append, chunk]
    omega
  · simp only [List.length_append]
    omega

/-! ## The state invariant -/

theorem sha256New_inv : StateInv sha256New := by
  refine ⟨?_, ?_, ?_, ?_⟩
  · unfold BoundedC
    decide
  · simp [sha256New]
  · rfl
  · decide

/-- Ingesting bytes preserves the state invariant. -/
theorem write_inv (d : Digest) (p : List Nat) (hd : StateInv d) (hp : ∀ b ∈ p, b < 256) :
    StateInv (write d p) := by
  obtain ⟨hb, hbytes, hlen, hfin⟩ := hd
  have hx : d.x.length < chunk := by
    simp only [chunk]
    omega
  rw [write_eq d p hx]
  refine ⟨block_bounded _ _ hb, ?_, ?_, ?_⟩
  · intro c hc
    have hmem : c ∈ d.x ++ p := List.drop_subset _ _ hc
    rcases List.mem_append.mp hmem with h | h
    exacts [hbytes c h, hp c h]
  · simp only [List.length_drop, List.length_append]
    simp only [chunk] at *
    omega
  · exact Nat.mod_lt _ (by norm_num)

theorem reachable_inv (d : Digest) (hd : Reachable d) : StateInv d := by
  obtain ⟨p, hp, rfl⟩ := hd
  exact write_inv _ _ sha256New_inv hp

/-! ## Big-endian byte packing -/

/-- Bitwise or of values occupying disjoint bit ranges is addition. -/
theorem lor_eq_add (k low high : Nat) (hh : 2 ^ k ∣ high) (hl : low < 2 ^ k) :
    low ||| high = low + high := by
  obtain ⟨m, rfl⟩ := hh
  apply Nat.eq_of_testBit_eq
  intro j
  rw [Nat.testBit_lor]
  rcases lt_or_ge j k with hj | hj
  · have hsplit : (2 : ℕ) ^ k = 2 ^ j * 2 ^ (k - j) := by
      rw [← pow_add]
      congr 1
      omega
    have ekj : (2 : ℕ) ^ (k - j) = 2 * 2 ^ (k - j - 1) := by
      rw [← pow_succ']
      congr 1
      omega
    have h1 : Nat.testBit (2 ^ k * m) j = false := by
      rw [Nat.testBit_to_div_mod, hsplit, Nat.mul_assoc,
        Nat.mul_div_cancel_left _ (pow_pos two_pos j), ekj, Nat.mul_assoc]
      simp [Nat.mul_mod_right]
    have h2 : Nat.testBit (low + 2 ^ k * m) j = Nat.testBit low j := by
      rw [Nat.testBit_to_div_mod, Nat.testBit_to_div_mod]
      have e2 : (low + 2 ^ k * m) / 2 ^ j = low / 2 ^ j + 2 ^ (k - j) * m := by
        rw [hsplit, Nat.mul_assoc, Nat.add_mul_div_left _ _ (pow_pos two_pos j)]
      rw [e2, ekj, Nat.mul_assoc]
      have : (low / 2 ^ j + 2 * (2 ^ (k - j - 1) * m)) % 2 = low / 2 ^ j % 2 := by
        omega
      rw [this]
    rw [h1, h2, Bool.or_false]
  · have h1 : Nat.testBit low j = false :=
      Nat.testBit_lt_two_pow (lt_of_lt_of_le hl (Nat.pow_le_pow_right (by norm_num) hj))
    have hsplit : (2 : ℕ) ^ j = 2 ^ k * 2 ^ (j - k) := by
      rw [← pow_add]
      congr 1
      omega
    have e1 : (low + 2 ^ k * m) / 2 ^ j = m / 2 ^ (j - k) := by
      rw [hsplit, ← Nat.div_div_eq_div_mul, Nat.add_mul_div_left _ _ (pow_pos two_pos k),
        Nat.div_eq_of_lt hl, Nat.zero_add]
    have e2 : 2 ^ k * m / 2 ^ j = m / 2 ^ (j - k) := by
      rw [hsplit, ← Nat.div_div_eq_div_mul, Nat.mul_div_cancel_left _ (pow_pos two_pos k)]
    rw [h1, Bool.false_or, Nat.testBit_to_div_mod, Nat.testBit_to_div_mod, e1, e2]

/-- Reassembling four big-endian bytes, as `consumeUint32` does. -/
theorem four_bytes (b0 b1 b2 b3 : Nat) (h1 : b1 < 256) (h2 : b2 < 256) (h3 : b3 < 256) :
    b3 ||| (b2 <<< 8) ||| (b1 <<< 16) ||| (b0 <<< 24) =
      b0 * 2 ^ 24 + b1 * 2 ^ 16 + b2 * 2 ^ 8 + b3 := by
  simp only [Nat.shiftLeft_eq]
  rw [show b3 ||| b2 * 2 ^ 8 = b3 + b2 * 2 ^ 8 from
    lor_eq_add 8 _ _ (dvd_mul_left _ _) (by omega)]
  rw [show b3 + b2 * 2 ^ 8 ||| b1 * 2 ^ 16 = b3 + b2 * 2 ^ 8 + b1 * 2 ^ 16 from
    lor_eq_add 16 _ _ (dvd_mul_left _ _) (by omega)]
  rw [show b3 + b2 * 2 ^ 8 + b1 * 2 ^ 16 ||| b0 * 2 ^ 24 =
      b3 + b2 * 2 ^ 8 + b1 * 2 ^ 16 + b0 * 2 ^ 24 from
    lor_eq_add 24 _ _ (dvd_mul_left _ _) (by omega)]
  omega

/-- Reassembling eight big-endian bytes, as `consumeUint64` does. -/
theorem eight_bytes (b0 b1 b2 b3 b4 b5 b6 b7 : Nat) (h1 : b1 < 256) (h2 : b2 < 256)
    (h3 : b3 < 256) (h4 : b4 < 256) (h5 : b5 < 256) (h6 : b6 < 256) (h7 : b7 < 256) :
    b7 ||| (b6 <<< 8) ||| (b5 <<< 16) ||| (b4 <<< 24) ||| (b3 <<< 32) ||| (b2 <<< 40) |||
      (b1 <<< 48) ||| (b0 <<< 56) =
      b0 * 2 ^ 56 + b1 * 2 ^ 48 + b2 * 2 ^ 40 + b3 * 2 ^ 32 + b4 * 2 ^ 24 +
        b5 * 2 ^ 16 + b6 * 2 ^ 8 + b7 := by
  simp only [Nat.shiftLeft_eq]
  rw [show b7 ||| b6 * 2 ^ 8 = b7 + b6 * 2 ^ 8 from
    lor_eq_add 8 _ _ (dvd_mul_left _ _) (by omega)]
  rw [show b7 + b6 * 2 ^ 8 ||| b5 * 2 ^ 16 = b7 + b6 * 2 ^ 8 + b5 * 2 ^ 16 from
    lor_eq_add 16 _ _ (dvd_mul_left _ _) (by omega)]
  rw [show b7 + b6 * 2 ^ 8 + b5 * 2 ^ 16 ||| b4 * 2 ^ 24 =
      b7 + b6 * 2 ^ 8 + b5 * 2 ^ 16 + b4 * 2 ^ 24 from
    lor_eq_add 24 _ _ (dvd_mul_left _ _) (by omega)]
  rw [show b7 + b6 * 2 ^ 8 + b5 * 2 ^ 16 + b4 * 2 ^ 24 ||| b3 * 2 ^ 32 =
      b7 + b6 * 2 ^ 8 + b5 * 2 ^ 16 + b4 * 2 ^ 24 + b3 * 2 ^ 32 from
    lor_eq_add 32 _ _ (dvd_mul_left _ _) (by omega)]
  rw [show b7 + b6 * 2 ^ 8 + b5 * 2 ^ 16 + b4 * 2 ^ 24 + b3 * 2 ^ 32 ||| b2 * 2 ^ 40 =
      b7 + b6 * 2 ^ 8 + b5 * 2 ^ 16 + b4 * 2 ^ 24 + b3 * 2 ^ 32 + b2 * 2 ^ 40 from
    lor_eq_add 40 _ _ (dvd_mul_left _ _) (by omega)]
  rw [show b7 + b6 * 2 ^ 8 + b5 * 2 ^ 16 + b4 * 2 ^ 24 + b3 * 2 ^ 32 + b2 * 2 ^ 40 |||
      b1 * 2 ^ 48 =
      b7 + b6 * 2 ^ 8 + b5 * 2 ^ 16 + b4 * 2 ^ 24 + b3 * 2 ^ 32 + b2 * 2 ^ 40 +
        b1 * 2 ^ 48 from
    lor_eq_add 48 _ _ (dvd_mul_left _ _) (by omega)]
  rw [show b7 + b6 * 2 ^ 8 + b5 * 2 ^ 16 + b4 * 2 ^ 24 + b3 * 2 ^ 32 + b2 * 2 ^ 40 +
      b1 * 2 ^ 48 ||| b0 * 2 ^ 56 =
      b7 + b6 * 2 ^ 8 + b5 * 2 ^ 16 + b4 * 2 ^ 24 + b3 * 2 ^ 32 + b2 * 2 ^ 40 +
        b1 * 2 ^ 48 + b0 * 2 ^ 56 from
    lor_eq_add 56 _ _ (dvd_mul_left _ _) (by omega)]
  omega

/-- `consumeUint32` inverts `appendUint32` at the head of a stream. -/
theorem readUint32_append (x : Nat) (hx : x < 2 ^ 32) (r : List Nat) :
    readUint32 (appendUint32 x ++ r) = x := by
  have h0 : readUint32 (appendUint32 x ++ r) =
      (x % 256) ||| (((x >>> 8) % 256) <<< 8) ||| (((x >>> 16) % 256) <<< 16) |||
        (((x >>> 24) % 256) <<< 24) := rfl
  rw [h0, four_bytes _ _ _ _ (Nat.mod_lt _ (by norm_num)) (Nat.mod_lt _ (by norm_num))
    (Nat.mod_lt _ (by norm_num))]
  simp only [Nat.shiftRight_eq_div_pow]
  omega

/-- `consumeUint64` inverts `appendUint64` at the head of a stream. -/
theorem readUint64_append (x : Nat) (hx : x < 2 ^ 64) (r : List Nat) :
    readUint64 (appendUint64 x ++ r) = x := by
  have h0 : readUint64 (appendUint64 x ++ r) =
      (x % 256) ||| (((x >>> 8) % 256) <<< 8) ||| (((x >>> 16) % 256) <<< 16) |||
        (((x >>> 24) % 256) <<< 24) ||| (((x >>> 32) % 256) <<< 32) |||
        (((x >>> 40) % 256) <<< 40) ||| (((x >>> 48) % 256) <<< 48) |||
        (((x >>> 56) % 256) <<< 56) := rfl
  rw [h0, eight_bytes _ _ _ _ _ _ _ _ (Nat.mod_lt _ (by norm_num))
    (Nat.mod_lt _ (by norm_num)) (Nat.mod_lt _ (by norm_num)) (Nat.mod_lt _ (by norm_num))
    (Nat.mod_lt _ (by norm_num)) (Nat.mod_lt _ (by norm_num)) (Nat.mod_lt _ (by norm_num))]
  simp only [Nat.shiftRight_eq_div_pow]
  omega

theorem readUint64_self (x : Nat) (hx : x < 2 ^ 64) :
    readUint64 (appendUint64 x) = x := by
  have h := readUint64_append x hx []
  rwa [List.append_nil] at h

/-! ## Round trip of the state codec -/

theorem drop_magic (r : List Nat) : (magic256 ++ r).drop 4 = r := rfl

theorem drop4_word (a : Nat) (r : List Nat) : (appendUint32 a ++ r).drop 4 = r := rfl

/-- Marshaled states always have the full fixed size. -/
theorem marshalBinary_length (d : Digest) (hx : d.x.length ≤ chunk) :
    (marshalBinary d).length = 108 := by
  simp only [marshalBinary, List.length_append, List.length_replicate, magic256,
    appendUint32, appendUint64, List.length_cons, List.length_nil]
  simp only [chunk] at *
  omega

/-- `UnmarshalBinary` inverts `MarshalBinary` on every state satisfying the
structural invariant (so in particular on every reachable state). -/
theorem unmarshal_marshal (d : Digest) (hd : StateInv d) :
    unmarshalBinary (marshalBinary d) = Except.ok d := by
  obtain ⟨⟨w0, w1, w2, w3, w4, w5, w6, w7⟩, dx, dlen⟩ := d
  obtain ⟨⟨hb0, hb1, hb2, hb3, hb4, hb5, hb6, hb7⟩, hbytes, hlen, hfin⟩ := hd
  simp only at hb0 hb1 hb2 hb3 hb4 hb5 hb6 hb7 hbytes hlen hfin
  have hxlt : dx.length < 64 := by omega
  have hreplen64 : (dx ++ List.replicate (chunk - dx.length) 0).length = 64 := by
    simp only [List.length_append, List.length_replicate, chunk]
    omega
  have hlen108 :
      (marshalBinary ⟨⟨w0, w1, w2, w3, w4, w5, w6, w7⟩, dx, dlen⟩).length = 108 :=
    marshalBinary_length _ (by simp only [chunk]; omega)
  have e0 : marshalBinary ⟨⟨w0, w1, w2, w3, w4, w5, w6, w7⟩, dx, dlen⟩ =
      magic256 ++ (appendUint32 w0 ++ (appendUint32 w1 ++ (appendUint32 w2 ++
        (appendUint32 w3 ++ (appendUint32 w4 ++ (appendUint32 w5 ++
        (appendUint32 w6 ++ (appendUint32 w7 ++ (dx ++
        (List.replicate (chunk - dx.length) 0 ++ appendUint64 dlen)))))))))) := by
    simp only [marshalBinary, List.append_assoc]
  have htake4 :
      (marshalBinary ⟨⟨w0, w1, w2, w3, w4, w5, w6, w7⟩, dx, dlen⟩).take 4 = magic256 := by
    rw [e0, List.take_append_of_le_length (by decide)]
    rfl
  have hcond1 : ¬((marshalBinary ⟨⟨w0, w1, w2, w3, w4, w5, w6, w7⟩, dx, dlen⟩).length < 4 ∨
      (marshalBinary ⟨⟨w0, w1, w2, w3, w4, w5, w6, w7⟩, dx, dlen⟩).take 4 ≠ magic256) := by
    rw [hlen108, htake4]
    simp
  have hcond2 : ¬((marshalBinary ⟨⟨w0, w1, w2, w3, w4, w5, w6, w7⟩, dx, dlen⟩).length ≠
      marshaledSize) := by
    rw [hlen108]
    decide
  simp only [unmarshalBinary]
  rw [if_neg hcond1, if_neg hcond2, e0, drop_magic]
  simp only [chunk] at hreplen64 ⊢
  -- peel the eight chaining words off the front
  have g8 : ∀ (a b : Nat) (r : List Nat),
      (appendUint32 a ++ (appendUint32 b ++ r)).drop 8 = r := fun _ _ _ => rfl
  have g12 : ∀ (a b c : Nat) (r : List Nat),
      (appendUint32 a ++ (appendUint32 b ++ (appendUint32 c ++ r))).drop 12 = r :=
    fun _ _ _ _ => rfl
  have g16 : ∀ (a b c d : Nat) (r : List Nat),
      (appendUint32 a ++ (appendUint32 b ++ (appendUint32 c ++ (appendUint32 d ++
        r)))).drop 16 = r := fun _ _ _ _ _ => rfl
  have g20 : ∀ (a b c d e : Nat) (r : List Nat),
      (appendUint32 a ++ (appendUint32 b ++ (appendUint32 c ++ (appendUint32 d ++
        (appendUint32 e ++ r))))).drop 20 = r := fun _ _ _ _ _ _ => rfl
  have g24 : ∀ (a b c d e f : Nat) (r : List Nat),
      (appendUint32 a ++ (appendUint32 b ++ (appendUint32 c ++ (appendUint32 d ++
        (appendUint32 e ++ (appendUint32 f ++ r)))))).drop 24 = r :=
    fun _ _ _ _ _ _ _ => rfl
  have g28 : ∀ (a b c d e f g : Nat) (r : List Nat),
      (appendUint32 a ++ (appendUint32 b ++ (appendUint32 c ++ (appendUint32 d ++
        (appendUint32 e ++ (appendUint32 f ++ (appendUint32 g ++ r))))))).drop 28 = r :=
    fun _ _ _ _ _ _ _ _ => rfl
  have g32 : ∀ (a b c d e f g h : Nat) (r : List Nat),
      (appendUint32 a ++ (appendUint32 b ++ (appendUint32 c ++ (appendUint32 d ++
        (appendUint32 e ++ (appendUint32 f ++ (appendUint32 g ++ (appendUint32 h ++
        r)))))))).drop 32 = r := fun _ _ _ _ _ _ _ _ _ => rfl
  have h96 : ∀ l : List Nat, List.drop 96 l = List.drop 64 (List.drop 32 l) := by
    intro l
    rw [List.drop_drop]
  rw [drop4_word, g8, g12, g16, g20, g24, g28, h96, g32,
    show dx ++ (List.replicate (64 - dx.length) 0 ++ appendUint64 dlen) =
      (dx ++ List.replicate (64 - dx.length) 0) ++ appendUint64 dlen from
      (List.append_assoc _ _ _).symm,
    List.drop_left' hreplen64, readUint64_self dlen hfin, List.take_left' hreplen64,
    ← hlen, List.take_left, readUint32_append w0 hb0, readUint32_append w1 hb1,
    readUint32_append w2 hb2, readUint32_append w3 hb3, readUint32_append w4 hb4,
    readUint32_append w5 hb5, readUint32_append w6 hb6, readUint32_append w7 hb7]

/-! ## Session model (main.go)

The resume token travels base64-encoded on the command line; base64 transport
is an injective byte-for-byte wrapper, so tokens are modelled at the byte
level here. -/

/-- Observable actions of the session around and after `io.Copy`
(main.go: the copy error branch, digest printing, signal handling). -/
inductive Event where
  | printAborted (position : Nat)
  | emitToken (state : List Nat)
  | reportError
  | printSum (digest : List Nat)
  | exitCode (n : Nat)
  | printInterrupt
  | cancelFetch
  deriving DecidableEq

/-- How `io.Copy(h, obj.Body)` can finish: normally, with the
`context.Canceled` error, or with any other error. -/
inductive CopyResult where
  | ok
  | canceled
  | otherError
  deriving DecidableEq

/-- The code after `io.Copy` in main.go: on `context.Canceled` print the
abort position, emit the marshaled state inside the resume command and exit 1;
on any other error report it and exit 1 with no token; on success print the
digest (the metadata comparison that follows is out of scope). -/
def afterCopy (r : CopyResult) (d : Digest) : List Event :=
  match r with
  | .ok => [.printSum (sumBytes d)]
  | .canceled => [.printAborted (hashGetLen d), .emitToken (marshalBinary d), .exitCode 1]
  | .otherError => [.reportError, .exitCode 1]

/-- Whether an event publishes a resume token. -/
def isTokenEvent : Event → Bool
  | .emitToken _ => true
  | _ => false

/-- Signals delivered to the handler goroutine. -/
inductive Sig where
  | interrupt
  | other
  deriving DecidableEq

/-- The signal-handler goroutine of main.go: skip non-interrupt signals;
on the first interrupt print a notice, set the flag and cancel the context;
on a second interrupt exit immediately (processing stops). -/
def runSignals (interrupted : Bool) : List Sig → List Event
  | [] => []
  | s :: rest =>
    if s ≠ Sig.interrupt then runSignals interrupted rest
    else if interrupted then [Event.exitCode 1]
    else Event.printInterrupt :: Event.cancelFetch :: runSignals true rest

/-- Startup failures of the resume branch in main.go. -/
inductive StartupError where
  | tooManyObjects
  | decodeError (msg : String)
  deriving DecidableEq

/-- The resume branch at the top of `main` (before any S3 call): with no
token, start empty at position 0; with a token, first reject more than one
object argument, then decode the token into a fresh accumulator and read the
confirmed position from its `len` field. -/
def resumeSetup (resume : Option (List Nat)) (nargs : Nat) :
    Except StartupError (Option Digest × Nat) :=
  match resume with
  | none => .ok (none, 0)
  | some tok =>
    if 1 < nargs then .error .tooManyObjects
    else
      match unmarshalBinary tok with
      | .error e => .error (.decodeError e)
      | .ok d => .ok (some d, hashGetLen d)

/-- The `GetObjectInput` range of main.go: `bytes=<position>-` when the
position is nonzero, otherwise no Range header (full object). -/
def rangeDirective (position : Nat) : Option String :=
  if position ≠ 0 then some ("bytes=" ++ toString position ++ "-") else none

/-- `hashMarshalBinary` (utils.go): call the engine's `MarshalBinary`, which
builds a fresh byte slice from the fields and leaves the digest unchanged. -/
def captureState (d : Digest) : List Nat × Digest := (marshalBinary d, d)

/-! ## Claim theorems -/

/-- C1 (resume equivalence): for every byte string and split point `k`,
hashing the whole string in one pass gives the same digest as hashing the
first `k` bytes, marshaling the state, unmarshaling it into a fresh
accumulator (which succeeds and restores the state exactly), and ingesting
the remaining bytes before finalizing. -/
theorem c1_resume_equivalence (m : List Nat) (k : Nat) (_hk : k ≤ m.length)
    (hb : ∀ b ∈ m, b < 256) :
    unmarshalBinary (marshalBinary (write sha256New (m.take k))) =
      Except.ok (write sha256New (m.take k)) ∧
    sumBytes (write (write sha256New (m.take k)) (m.drop k)) =
      sumBytes (write sha256New m) := by
  have hreach : Reachable (write sha256New (m.take k)) :=
    ⟨m.take k, fun b hb' => hb b (List.take_subset _ _ hb'), rfl⟩
  refine ⟨unmarshal_marshal _ (reachable_inv _ hreach), ?_⟩
  rw [write_append _ _ _ (by decide), List.take_append_drop]

/-- Witness for C1 at the byte string `[1, 2, 3]` split at `k = 1`. -/
theorem c1_resume_equivalence_witness :
    ((1 ≤ ([1, 2, 3] : List Nat).length) ∧ (∀ b ∈ ([1, 2, 3] : List Nat), b < 256)) ∧
    (unmarshalBinary (marshalBinary (write sha256New (([1, 2, 3] : List Nat).take 1))) =
      Except.ok (write sha256New (([1, 2, 3] : List Nat).take 1)) ∧
    sumBytes (write (write sha256New (([1, 2, 3] : List Nat).take 1))
        (([1, 2, 3] : List Nat).drop 1)) =
      sumBytes (write sha256New [1, 2, 3])) :=
  ⟨⟨by decide, by decide⟩, c1_resume_equivalence [1, 2, 3] 1 (by decide) (by decide)⟩

/-- C2 (round trip): decoding an encoded reachable state succeeds and returns
the same state, and the encoder is a deterministic function of the state. -/
theorem c2_roundtrip (d : Digest) (hd : Reachable d) :
    unmarshalBinary (marshalBinary d) = Except.ok d ∧
    marshalBinary d = marshalBinary d :=
  ⟨unmarshal_marshal d (reachable_inv d hd), rfl⟩

/-- Witness for C2 at the state reached by ingesting the single byte `7`. -/
theorem c2_roundtrip_witness :
    Reachable (write sha256New [7]) ∧
    unmarshalBinary (marshalBinary (write sha256New [7])) =
      Except.ok (write sha256New [7]) :=
  ⟨⟨[7], by decide, rfl⟩, (c2_roundtrip _ ⟨[7], by decide, rfl⟩).1⟩

/-- C4 counterexample: a 107-byte input (the encoded fresh state with its
last byte cut off) has length differing from the full layout, yet decode does
not treat it as a checksummed compact shape: it fails with the size error;
no checksum is ever consulted. -/
theorem c4_counterexample :
    ((marshalBinary sha256New).take 107).length ≠ 108 ∧
    unmarshalBinary ((marshalBinary sha256New).take 107) =
      Except.error "crypto/sha256: invalid hash state size" :=
  ⟨by decide, rfl⟩

/-- C4 as amended: any input whose length differs from the fixed 108-byte
layout is rejected, with the identifier error (bad or missing 4-byte tag) or
the size error; there is no compact shape and no checksum verification. -/
theorem c4_size_check (b : List Nat) (hb : b.length ≠ 108) :
    unmarshalBinary b = Except.error "crypto/sha256: invalid hash state identifier" ∨
    unmarshalBinary b = Except.error "crypto/sha256: invalid hash state size" := by
  by_cases h1 : b.length < 4 ∨ b.take 4 ≠ magic256
  · left
    simp only [unmarshalBinary]
    rw [if_pos h1]
  · right
    simp only [unmarshalBinary]
    rw [if_neg h1, if_pos (by simp only [marshaledSize]; exact hb)]

/-- Witness for the amended C4 at a 107-byte all-zero input. -/
theorem c4_size_check_witness :
    (List.replicate 107 (0 : Nat)).length ≠ 108 ∧
    (unmarshalBinary (List.replicate 107 (0 : Nat)) =
        Except.error "crypto/sha256: invalid hash state identifier" ∨
      unmarshalBinary (List.replicate 107 (0 : Nat)) =
        Except.error "crypto/sha256: invalid hash state size") :=
  ⟨by decide, c4_size_check _ (by decide)⟩

/-- C5 (state invariant): every reachable state satisfies
`totalLen mod 64 = bufferLen`; the invariant is preserved by ingesting,
capturing leaves the state untouched, and decode derives the buffer
occupancy from `len mod 64` rather than storing it. -/
theorem c5_state_invariant :
    (∀ d, Reachable d → d.x.length = d.len % 64) ∧
    (∀ d p, d.x.length = d.len % 64 →
      (write d p).x.length = (write d p).len % 64) ∧
    (∀ d, (captureState d).2.x.length = d.x.length ∧ (captureState d).2.len = d.len) ∧
    (∀ b d', unmarshalBinary b = Except.ok d' → d'.x.length = d'.len % 64) := by
  refine ⟨?_, ?_, ?_, ?_⟩
  · intro d hd
    exact (reachable_inv d hd).2.2.1
  · intro d p hd
    have hx : d.x.length < chunk := by
      simp only [chunk]
      omega
    rw [write_eq d p hx]
    simp only [List.length_drop, List.length_append, chunk]
    omega
  · intro d
    exact ⟨rfl, rfl⟩
  · intro b d' hok
    simp only [unmarshalBinary] at hok
    by_cases h1 : b.length < 4 ∨ b.take 4 ≠ magic256
    · rw [if_pos h1] at hok
      exact Except.noConfusion hok
    · rw [if_neg h1] at hok
      by_cases h2 : b.length ≠ marshaledSize
      · rw [if_pos h2] at hok
        exact Except.noConfusion hok
      · rw [if_neg h2] at hok
        injection hok with hok
        subst hok
        simp only [List.length_take, List.length_drop, chunk]
        push_neg at h2
        simp only [marshaledSize] at h2
        omega

/-- Witness for C5 at the fresh state and the one-byte input `[7]`. -/
theorem c5_state_invariant_witness :
    sha256New.x.length = sha256New.len % 64 ∧
    (write sha256New [7]).x.length = (write sha256New [7]).len % 64 :=
  ⟨rfl, c5_state_invariant.2.1 sha256New [7] rfl⟩

/-- C6 (token iff cancel): the session emits a resume token exactly when the
byte copy fails with the cancellation error; a success prints only the sum,
and any other error reports it and exits without a token. -/
theorem c6_token_iff_canceled (r : CopyResult) (d : Digest) :
    (∃ s, Event.emitToken s ∈ afterCopy r d) ↔ r = CopyResult.canceled := by
  cases r <;> simp [afterCopy]

/-- C7 (resume startup): a supplied token is decoded into a fresh accumulator
before anything else, the confirmed position is the restored `len` field
(0 with no token), and the fetch range is `bytes=<position>-` exactly when
the position is nonzero, a full-object request otherwise. -/
theorem c7_resume_startup :
    (∀ d, Reachable d →
      resumeSetup (some (marshalBinary d)) 1 = Except.ok (some d, hashGetLen d) ∧
      hashGetLen d = d.len ∧
      rangeDirective (hashGetLen d) =
        (if hashGetLen d = 0 then none
         else some ("bytes=" ++ toString (hashGetLen d) ++ "-"))) ∧
    (∀ n, resumeSetup none n = Except.ok (none, 0)) ∧
    rangeDirective 0 = none := by
  refine ⟨?_, fun _ => rfl, rfl⟩
  intro d hd
  refine ⟨?_, rfl, ?_⟩
  · simp only [resumeSetup, unmarshal_marshal d (reachable_inv d hd)]
    rw [if_neg (by norm_num)]
  · simp only [rangeDirective, hashGetLen]
    by_cases h : d.len = 0 <;> simp [h]

/-- Witness for C7 at the freshly-initialized reachable state. -/
theorem c7_resume_startup_witness :
    Reachable (write sha256New []) ∧
    resumeSetup (some (marshalBinary (write sha256New []))) 1 =
      Except.ok (some (write sha256New []), hashGetLen (write sha256New [])) :=
  ⟨⟨[], by simp, rfl⟩, (c7_resume_startup.1 _ ⟨[], by simp, rfl⟩).1⟩

/-- C8 (capture is read-only and idempotent): capturing returns the state
unchanged, capturing twice yields identical bytes, and the final digest and
any further ingestion are unaffected by a capture. -/
theorem c8_capture_pure (d : Digest) :
    (captureState d).2 = d ∧
    (captureState ((captureState d).2)).1 = (captureState d).1 ∧
    sumBytes (captureState d).2 = sumBytes d ∧
    (∀ p, write (captureState d).2 p = write d p) :=
  ⟨rfl, rfl, rfl, fun _ => rfl⟩

theorem runSignals_true_no_cancel (sigs : List Sig) :
    (runSignals true sigs).count Event.cancelFetch = 0 := by
  induction sigs with
  | nil => rfl
  | cons s rest ih =>
    cases s
    · simp [runSignals]
    · simpa [runSignals] using ih

theorem runSignals_cancel_le_one (sigs : List Sig) :
    (runSignals false sigs).count Event.cancelFetch ≤ 1 := by
  induction sigs with
  | nil => simp [runSignals]
  | cons s rest ih =>
    cases s
    · simp [runSignals, List.count_cons, runSignals_true_no_cancel]
    · simpa [runSignals] using ih

/-- C9 (second-signal hard abort): the first interrupt prints the notice and
cancels the fetch (whose cancellation produces exactly one token, see
`afterCopy`); a second interrupt exits immediately, with no further capture
and no further processing of pending signals; no run of the handler cancels
more than once. -/
theorem c9_second_signal (rest : List Sig) (d : Digest) :
    runSignals false (Sig.interrupt :: Sig.interrupt :: rest) =
      [Event.printInterrupt, Event.cancelFetch, Event.exitCode 1] ∧
    (∀ sigs, (runSignals false sigs).count Event.cancelFetch ≤ 1) ∧
    (afterCopy CopyResult.canceled d).countP (fun e => isTokenEvent e) = 1 := by
  refine ⟨rfl, runSignals_cancel_le_one, ?_⟩
  simp [afterCopy, isTokenEvent, List.countP_cons]

/-- C10 (single-object resume): a resume token together with more than one
object argument is rejected with the dedicated error before the token is
even decoded (the token here may be arbitrary bytes). -/
theorem c10_single_object (tok : List Nat) (n : Nat) (hn : 1 < n) :
    resumeSetup (some tok) n = Except.error StartupError.tooManyObjects := by
  simp only [resumeSetup]
  rw [if_pos hn]

/-- Witness for C10 with an undecodable 3-byte token and two objects. -/
theorem c10_single_object_witness :
    (1 : Nat) < 2 ∧
    resumeSetup (some [0, 1, 2]) 2 = Except.error StartupError.tooManyObjects :=
  ⟨by decide, c10_single_object [0, 1, 2] 2 (by decide)⟩
